import Mathlib

/-!
Verification development for the materiality-extraction pipeline of the
double-materiality-multimodal repository.

The shallow embedding below translates `app/domain/logic.py` and the merge
component of `app/infrastructure/clients/gemini_client.py` into Lean.

Modelling conventions:
* Python `float` arithmetic is modelled as exact rational arithmetic (`ℚ`);
  decimal literals such as `0.5` denote the exact rationals.
* Python dictionaries with string keys are modelled as association lists
  (`List (String × β)`) in insertion order; `d[k]` / `k in d` are modelled by
  `alookup`, which returns the first binding, matching dicts whose keys are
  unique.
* `list(set(xs))` is modelled as first-occurrence deduplication
  (`List.eraseDups`); within a fixed Python process the set iteration order is
  a fixed function of the element hashes, so the embedding fixes one
  deterministic order.
* `list.sort(key=k, reverse=True)` (Python's stable sort) is modelled by
  the stable `List.insertionSort` with the relation `k b ≤ k a`; a stable
  sort's output is uniquely determined by the comparator and input order, so
  this is exact.
* The module `app.domain.constants` is not part of the sources; the tables it
  provides (`UNIVERSAL_ESG_ISSUES`, `MATERIALITY_KEYWORDS`,
  `AUTO_INDUSTRY_DETECTION`, `INDUSTRY_SPECIFIC_KEYWORDS`,
  `ISSUE_PRIORITY_WEIGHTS`) are passed as an explicit parameter record
  `Constants`, mirroring the module-level imports in `logic.py`.
* `print` calls are ignored (they do not affect the returned values).
-/

namespace DMM

/-- Python `str.count(sub)` for a non-empty `sub`: number of non-overlapping
occurrences scanning left to right.  `fuel` bounds the recursion; it is
instantiated with the length of the haystack, which suffices because every
step consumes at least one character. -/
def countSubAux (needle : List Char) : Nat → List Char → Nat
  | 0, _ => 0
  | _, [] => 0
  | fuel + 1, c :: rest =>
    if needle.isPrefixOf (c :: rest) then
      1 + countSubAux needle fuel ((c :: rest).drop needle.length)
    else
      countSubAux needle fuel rest

/-- Python `text.count(sub)`; on an empty `sub` Python returns `len(text)+1`. -/
def pyCount (text sub : String) : Nat :=
  match sub.data with
  | [] => text.data.length + 1
  | needle => countSubAux needle text.data.length text.data

/-- Python substring containment `sub in text`. -/
def pyContains (text sub : String) : Bool :=
  0 < pyCount text sub

/-- Splitting a character list at whitespace, accumulating the current word;
auxiliary for `pySplitWhite`. -/
def splitWhiteAux : List Char → List Char → List String
  | acc, [] => if acc = [] then [] else [acc.reverse.asString]
  | acc, c :: rest =>
    if c.isWhitespace then
      if acc = [] then splitWhiteAux [] rest
      else acc.reverse.asString :: splitWhiteAux [] rest
    else splitWhiteAux (c :: acc) rest

/-- Python `s.split()`: split on whitespace runs, dropping empty pieces. -/
def pySplitWhite (s : String) : List String :=
  splitWhiteAux [] s.data

/-- Python `s.strip()`: remove leading and trailing whitespace. -/
def pyStrip (s : String) : String :=
  (((s.data.dropWhile Char.isWhitespace).reverse.dropWhile Char.isWhitespace).reverse).asString

/-- Python `s.lower()` (ASCII case folding, as in `str.lower` on the names the
merge component sees). -/
def pyLower (s : String) : String :=
  (s.data.map Char.toLower).asString

/-- Python `" ".join(parts)`. -/
def joinSpace : List String → String
  | [] => ""
  | [x] => x
  | x :: rest => x ++ " " ++ joinSpace rest

/-- First-binding lookup in an association list, modelling `d[k]` on a Python
dict with unique keys (and `k in d` via `Option.isSome`). -/
def alookup (k : String) : List (String × β) → Option β
  | [] => none
  | (k', v) :: rest => if k' = k then some v else alookup k rest

/-- One step of Python's `max(..., key=...)` scan: the current best is
replaced only on a strictly greater value, so ties keep the earlier key. -/
def maxStep (cur q : String × Nat) : String × Nat :=
  if q.2 > cur.2 then q else cur

/-- Python `max(d, key=d.get)` over an association list: the first key whose
value attains the maximum. -/
def pyMaxBySnd : List (String × Nat) → Option (String × Nat)
  | [] => none
  | p :: rest => some (rest.foldl maxStep p)

/-- One text segment handed to the pipeline.  In the sources the elements come
from the document-layout library; `getattr(element, 'text', …)` always finds a
`text` attribute, `page_number` models
`getattr(element.metadata, 'page_number', None)` and `element_type` models
`type(element).__name__`. -/
structure Element where
  text : String
  page_number : Option Int
  element_type : String
deriving Repr, DecidableEq

/-- One entry of `UNIVERSAL_ESG_ISSUES` (the per-issue keyword data). -/
structure IssueData where
  core_keywords : List String
  advanced_keywords : List String
  industry_variants : List (String × List String)
deriving Repr, DecidableEq

/-- One entry of `INDUSTRY_SPECIFIC_KEYWORDS`. -/
structure IndustryData where
  business_keywords : List String
deriving Repr, DecidableEq

/-- Modelled from the spec: the static tables of `app.domain.constants`, a
module that is not among the sources; only its table names and shapes are used
by `logic.py`, so the tables are carried as an explicit parameter record. -/
structure Constants where
  UNIVERSAL_ESG_ISSUES : List (String × List (String × IssueData))
  MATERIALITY_KEYWORDS : List String
  AUTO_INDUSTRY_DETECTION : List (String × List String)
  INDUSTRY_SPECIFIC_KEYWORDS : List (String × IndustryData)
  ISSUE_PRIORITY_WEIGHTS : List (String × List (String × ℚ))
deriving Repr

/-- The "core-identity" test of `detect_industry_from_text`: the keyword
contains one of the substrings 발전 (power generation), 회사 (company),
한국 (Korea). -/
def isCoreIdentityKeyword (keyword : String) : Bool :=
  pyContains keyword "발전" || pyContains keyword "회사" || pyContains keyword "한국"

/-- The per-keyword points awarded inside `detect_industry_from_text`:
zero when the keyword does not occur, otherwise the tiered capped weight
(company-like keywords, long keywords, other keywords). -/
def keywordPoints (keyword : String) (count : Nat) : Nat :=
  if 0 < count then
    if isCoreIdentityKeyword keyword then
      min (count * 5) 25
    else if 4 ≤ keyword.length then
      min (count * 3) 15
    else
      min (count * 2) 10
  else 0

/-- The score one industry's keyword list earns on a text. -/
def industryScore (keywords : List String) (text : String) : Nat :=
  (keywords.map (fun kw => keywordPoints kw (pyCount text kw))).sum

/-- The `industry_scores` dict built by `detect_industry_from_text`, in table
iteration order. -/
def industryScores (auto : List (String × List String)) (text : String) :
    List (String × Nat) :=
  auto.map (fun p => (p.1, industryScore p.2 text))

/-- Translation of `detect_industry_from_text` (logic.py:19).  The guard
`if industry_scores and max(industry_scores.values()) > 0` and the selection
`max(industry_scores, key=industry_scores.get)` collapse to one fold whose
result carries both the first-seen argmax key and the maximal value. -/
def detect_industry_from_text (auto : List (String × List String)) (text : String) :
    String :=
  match pyMaxBySnd (industryScores auto text) with
  | none => "기타"
  | some best => if 0 < best.2 then best.1 else "기타"

/-- The detection score an industry name earns on a text (0 when the industry
is not in the detection table, as for the fallback tag "기타"). -/
def scoreIn (auto : List (String × List String)) (text ind : String) : Nat :=
  (alookup ind (industryScores auto text)).getD 0

/-- Translation of `get_dynamic_keywords_for_issue` (logic.py:68).  The loop
over `UNIVERSAL_ESG_ISSUES` with `break` takes the first category containing
the issue. -/
def get_dynamic_keywords_for_issue (K : Constants) (issue_name : String)
    (industry : String) : List String :=
  let fromCatalog :=
    match K.UNIVERSAL_ESG_ISSUES.find? (fun cat => (alookup issue_name cat.2).isSome) with
    | some cat =>
      match alookup issue_name cat.2 with
      | some d =>
        d.core_keywords ++ d.advanced_keywords ++
          ((alookup industry d.industry_variants).getD [])
      | none => []
    | none => []
  let withBusiness :=
    match alookup industry K.INDUSTRY_SPECIFIC_KEYWORDS with
    | some ind =>
      if issue_name = "고객 및 제품책임" ∨ issue_name = "공급망 관리" then
        fromCatalog ++ ind.business_keywords
      else fromCatalog
    | none => fromCatalog
  withBusiness.eraseDups

/-- Translation of `calculate_enhanced_confidence` (logic.py:203). -/
def calculate_enhanced_confidence (weights : List (String × List (String × ℚ)))
    (text issue_name : String) (matched_keywords all_keywords : List String)
    (industry : String) : ℚ :=
  let kwCoverage : ℚ :=
    if all_keywords = [] then 0
    else (matched_keywords.length : ℚ) / (all_keywords.length : ℚ)
  let c1 : ℚ := kwCoverage * 0.5
  let c2 : ℚ := if pyContains text issue_name then 0.3 else 0
  let c3 : ℚ :=
    if ["중대성", "materiality", "핵심이슈", "우선순위"].any (fun w => pyContains text w) then 0.2
    else 0
  let c4 : ℚ :=
    if ["│", "─", "표", "매트릭스", "순위", "높음", "보통", "낮음"].any (fun w => pyContains text w) then
      0.15
    else 0
  let c5 : ℚ :=
    match alookup industry weights with
    | some ws => ((alookup issue_name ws).getD 0) * 0.1
    | none => 0
  let c6 : ℚ :=
    if ["평가", "관리", "전략", "개선", "목표", "성과"].any
        (fun w => matched_keywords.contains w) then 0.1
    else 0
  min (c1 + c2 + c3 + c4 + c5 + c6) 1

/-- One `MatchCandidate` dict as built by the extraction loop.  The
`priority_score` and `industry_weight` keys do not exist until
`apply_industry_priority` assigns them, hence the `Option` defaults. -/
structure Issue where
  issue_id : Nat
  category : String
  issue_name : String
  content : String
  matched_keywords : List String
  page_number : Option Int
  element_type : String
  confidence : ℚ
  industry : String
  priority_score : Option ℚ := none
  industry_weight : Option ℚ := none
deriving Repr, DecidableEq

/-- Python `str(page)` as used in the dedup key: `"None"` for a missing page. -/
def pageStr : Option Int → String
  | some n => toString n
  | none => "None"

/-- The dedup key `f"{issue['issue_name']}_{issue['page_number']}"`. -/
def dedupKey (i : Issue) : String :=
  i.issue_name ++ "_" ++ pageStr i.page_number

/-- The `seen_issues` dict update of `remove_duplicate_issues`: insert a new
key at the end, or replace the stored value in place when the new confidence is
strictly greater (dict assignment keeps the key's position). -/
def updateSeen : List (String × Issue) → Issue → List (String × Issue)
  | [], i => [(dedupKey i, i)]
  | (k, old) :: rest, i =>
    if k = dedupKey i then
      if old.confidence < i.confidence then (k, i) :: rest
      else (k, old) :: rest
    else
      (k, old) :: updateSeen rest i

/-- Translation of `remove_duplicate_issues` (logic.py:243): fold the dict
update over the list and return `list(seen_issues.values())`. -/
def remove_duplicate_issues (issues : List Issue) : List Issue :=
  (issues.foldl updateSeen []).map Prod.snd

/-- Python's stable `list.sort(key=key, reverse=True)`: the stable insertion
sort with the non-strict descending key order. -/
def pySortDescBy (key : α → ℚ) (l : List α) : List α :=
  l.insertionSort (fun a b => key b ≤ key a)

/-- Translation of `apply_industry_priority` (logic.py:256).  When the industry
is missing from the weight table the list is returned unchanged; otherwise
every candidate receives `priority_score`/`industry_weight` and the list is
re-sorted by `priority_score` descending. -/
def apply_industry_priority (weights : List (String × List (String × ℚ)))
    (issues : List Issue) (industry : String) : List Issue :=
  match alookup industry weights with
  | none => issues
  | some ws =>
    let scored := issues.map (fun i =>
      match alookup i.issue_name ws with
      | some w =>
        { i with priority_score := some (i.confidence * (1 + w)),
                 industry_weight := some w }
      | none =>
        { i with priority_score := some (i.confidence * 1.1),
                 industry_weight := some 0.1 })
    pySortDescBy (fun i => i.priority_score.getD 0) scored

/-- Python `round(x, 2)` (round half to even), exactly on rationals. -/
def round2 (x : ℚ) : ℚ :=
  let y := x * 100
  let n : ℤ := ⌊y⌋
  let r := y - n
  let up : ℤ :=
    if r > 1/2 then n + 1
    else if r < 1/2 then n
    else if n % 2 = 0 then n else n + 1
  (up : ℚ) / 100

/-- The `analysis_details` sub-dict of the aggregate confidence. -/
structure AnalysisDetails where
  base_confidence : ℚ
  industry_bonus : ℚ
  diversity_bonus : ℚ
  quality_bonus : ℚ
deriving Repr, DecidableEq

/-- The dict returned by `calculate_overall_confidence_enhanced`.  The two
branches of the source return dicts with different key sets, hence the
`Option` fields. -/
structure OverallConfidence where
  score : ℚ
  level : String
  industry : String
  reason : Option String := none
  issues_found : Option Nat := none
  high_confidence_count : Option Nat := none
  category_diversity : Option Nat := none
  analysis_details : Option AnalysisDetails := none
deriving Repr, DecidableEq

/-- Translation of `calculate_overall_confidence_enhanced` (logic.py:278).
The `issue_scores` parameter is carried for faithfulness but, as in the
source, never read. -/
def calculate_overall_confidence_enhanced (issues : List Issue)
    (issue_scores : List (String × ℚ)) (industry : String) : OverallConfidence :=
  if issues = [] then
    { score := 0, level := "낮음", reason := some "이슈를 찾을 수 없음", industry := industry }
  else
    let avg : ℚ := (issues.map (fun i => i.confidence)).sum / (issues.length : ℚ)
    let industry_bonus : ℚ := if industry ≠ "기타" then 0.1 else 0
    let unique_categories : Nat := ((issues.map (fun i => i.category)).eraseDups).length
    let diversity_bonus : ℚ := min ((unique_categories : ℚ) * 0.05) 0.15
    let high_confidence : Nat := (issues.filter (fun i => (0.7 : ℚ) < i.confidence)).length
    let quality_bonus : ℚ := ((high_confidence : ℚ) / (issues.length : ℚ)) * 0.1
    let final_score : ℚ := min 1 (avg + industry_bonus + diversity_bonus + quality_bonus)
    let level : String :=
      if (0.8 : ℚ) ≤ final_score then "높음"
      else if (0.6 : ℚ) ≤ final_score then "중간"
      else "낮음"
    { score := round2 final_score
      level := level
      industry := industry
      issues_found := some issues.length
      high_confidence_count := some high_confidence
      category_diversity := some unique_categories
      analysis_details := some
        { base_confidence := round2 avg
          industry_bonus := industry_bonus
          diversity_bonus := round2 diversity_bonus
          quality_bonus := round2 quality_bonus } }

/-- Python `category.split("(")[0]`: the prefix before the first parenthesis. -/
def categoryShort (category : String) : String :=
  (category.data.takeWhile (fun c => c ≠ '(')).asString

/-- Builder for one candidate dict of the extraction loop; `numPrevious` is
`len(issues)` at emission time. -/
def mkCandidate (K : Constants) (detected : String) (numPrevious : Nat)
    (category issue_name : String) (e : Element)
    (matched dynamic : List String) : Issue :=
  { issue_id := numPrevious + 1
    category := categoryShort category
    issue_name := issue_name
    content := (e.text.data.take 500).asString
    matched_keywords := matched
    page_number := e.page_number
    element_type := e.element_type
    confidence :=
      calculate_enhanced_confidence K.ISSUE_PRIORITY_WEIGHTS e.text issue_name
        matched dynamic detected
    industry := detected }

/-- The ESG-relevance pre-filter of the extraction loop. -/
def esgRelated (K : Constants) (t : String) : Bool :=
  K.MATERIALITY_KEYWORDS.any (fun kw => pyContains t kw)
  || ["환경", "사회", "지배구조", "ESG", "지속가능", "sustainability"].any
       (fun kw => pyContains t kw)
  || 20 ≤ (pyStrip t).length

/-- Inner loop of the extraction: one `(category, issue_name)` pair against one
element, appending a candidate when the matched keyword list is non-empty. -/
def scanIssue (K : Constants) (detected : String) (e : Element) (category : String)
    (acc : List Issue) (entry : String × IssueData) : List Issue :=
  let issue_name := entry.1
  let dynamic := get_dynamic_keywords_for_issue K issue_name detected
  let matched := dynamic.filter (fun kw => pyContains e.text kw)
  if matched = [] then acc
  else acc ++ [mkCandidate K detected acc.length category issue_name e matched dynamic]

/-- One element's pass over the whole catalog (skipped if the pre-filter
rejects the element's text). -/
def scanElement (K : Constants) (detected : String) (acc : List Issue)
    (e : Element) : List Issue :=
  if esgRelated K e.text then
    K.UNIVERSAL_ESG_ISSUES.foldl (fun acc cat => cat.2.foldl (scanIssue K detected e cat.1) acc) acc
  else acc

/-- The full-text concatenation used for industry detection. -/
def fullTextOf (elements : List Element) : String :=
  joinSpace (elements.map (fun e => e.text))

/-- The industry the pipeline detects for a segment list. -/
def detectedOf (K : Constants) (elements : List Element) : String :=
  detect_industry_from_text K.AUTO_INDUSTRY_DETECTION (fullTextOf elements)

/-- The raw candidate list (`issues`) produced by the extraction loop. -/
def candidatesOf (K : Constants) (elements : List Element) : List Issue :=
  elements.foldl (scanElement K (detectedOf K elements)) []

/-- The `issue_confidence_scores` dict update: record a new issue name or a
strictly larger confidence.  The dict is updated exactly when a candidate is
emitted, so it is a fold over the emitted candidates. -/
def updateScore (m : List (String × ℚ)) (name : String) (c : ℚ) :
    List (String × ℚ) :=
  match alookup name m with
  | none => m ++ [(name, c)]
  | some old => if old < c then m.map (fun p => if p.1 = name then (p.1, c) else p) else m

/-- The `issue_confidence_scores` dict after the extraction loop. -/
def issueScoresOf (cands : List Issue) : List (String × ℚ) :=
  cands.foldl (fun m i => updateScore m i.issue_name i.confidence) []

/-- The deduplicated, confidence-sorted candidate list (steps 4 of the
pipeline: `remove_duplicate_issues` then the in-place sort by confidence). -/
def uniqueSortedOf (K : Constants) (elements : List Element) : List Issue :=
  pySortDescBy (fun i => i.confidence) (remove_duplicate_issues (candidatesOf K elements))

/-- The prioritized list (step 5: `apply_industry_priority`). -/
def prioritizedOf (K : Constants) (elements : List Element) : List Issue :=
  apply_industry_priority K.ISSUE_PRIORITY_WEIGHTS (uniqueSortedOf K elements)
    (detectedOf K elements)

/-- The result dict of `extract_materiality_issues_enhanced`. -/
structure ExtractionResult where
  detected_industry : String
  total_issues_found : Nat
  issues : List Issue
  overall_confidence : OverallConfidence
  industry_priority_applied : Bool
deriving Repr, DecidableEq

/-- Translation of `extract_materiality_issues_enhanced` (logic.py:109). -/
def extract_materiality_issues_enhanced (K : Constants) (elements : List Element) :
    ExtractionResult :=
  let detected := detectedOf K elements
  let prioritized := prioritizedOf K elements
  { detected_industry := detected
    total_issues_found := prioritized.length
    issues := prioritized.take 20
    overall_confidence :=
      calculate_overall_confidence_enhanced prioritized
        (issueScoresOf (candidatesOf K elements)) detected
    industry_priority_applied := true }

/-- An issue dict as seen by the merge component: only `issue_name` (read with
default `""`) and the `source` tag matter to `merge_extraction_results` and
`_is_similar_issue`; the remaining payload is opaque to them and carried as an
uninterpreted field. -/
structure MIssue where
  issue_name : String
  payload : String := ""
  source : Option String := none
deriving Repr, DecidableEq

/-- Translation of `GeminiClient._is_similar_issue`
(gemini_client.py:452): word-overlap ratio over the lowercased,
whitespace-split issue names, compared against 0.3. -/
def _is_similar_issue (issue1 issue2 : MIssue) : Bool :=
  let name1 := pyLower issue1.issue_name
  let name2 := pyLower issue2.issue_name
  if name1.length = 0 ∨ name2.length = 0 then false
  else
    let words1 := (pySplitWhite name1).eraseDups
    let words2 := (pySplitWhite name2).eraseDups
    if words1.length = 0 ∨ words2.length = 0 then false
    else
      let common := words1.filter (fun w => words2.contains w)
      decide ((0.3 : ℚ) < (common.length : ℚ) / (min words1.length words2.length : ℚ))

/-- The `data` payload of a Gemini analysis result:
`gemini_result["data"].get("materiality_issues", [])`. -/
structure GeminiData where
  materiality_issues : List MIssue
deriving Repr, DecidableEq

/-- A Gemini analysis result: the merge only reads the `success` flag and the
optional `data` payload. -/
structure GeminiResult where
  success : Bool
  data : Option GeminiData
deriving Repr, DecidableEq

/-- Translation of `GeminiClient.merge_extraction_results`
(gemini_client.py:426): start from a copy of the internal issues and append
each Gemini issue, tagged `source = "gemini"`, unless it is similar to some
issue already in the merged list. -/
def merge_extraction_results (unstructured_issues : List MIssue)
    (gemini_result : GeminiResult) : List MIssue :=
  if !gemini_result.success then unstructured_issues
  else
    match gemini_result.data with
    | none => unstructured_issues
    | some d =>
      d.materiality_issues.foldl
        (fun merged g =>
          if merged.any (fun existing => _is_similar_issue g existing) then merged
          else merged ++ [{ g with source := some "gemini" }])
        unstructured_issues

/-- Modelled from the spec: the Priority Ranker of §4.6 as worded there —
sort the deduplicated candidates by confidence, truncate to the top 20
first, and only then compute priority scores and re-sort.  This is the
reference point for the step-order claim; the source computes priority on the
full list and truncates last. -/
def spec_truncate_before_ranking (K : Constants) (elements : List Element) :
    List Issue :=
  apply_industry_priority K.ISSUE_PRIORITY_WEIGHTS ((uniqueSortedOf K elements).take 20)
    (detectedOf K elements)

/-- Modelled from the spec: the enrichment merge rule of §6 as worded there —
an external candidate is discarded exactly when its similarity against some
internally produced candidate exceeds 0.3, otherwise appended with the
provenance tag.  The source instead compares against the growing merged
list. -/
def merge_per_spec (internal externals : List MIssue) : List MIssue :=
  internal ++
    (externals.filter
      (fun g => ¬ internal.any (fun i => _is_similar_issue g i))).map
      (fun g => { g with source := some "gemini" })

/-- Recursive presentation of the source's merge loop: append each external
candidate, tagged, unless it is similar to a candidate already in the merged
list (internal or previously appended external). -/
def merge_append_unless_similar (merged : List MIssue) : List MIssue → List MIssue
  | [] => merged
  | g :: gs =>
    if merged.any (fun existing => _is_similar_issue g existing) then
      merge_append_unless_similar merged gs
    else
      merge_append_unless_similar (merged ++ [{ g with source := some "gemini" }]) gs

/-- Boolean form of the consecutive-pair order on priority scores. -/
def priorityStepDescB (a b : Issue) : Bool :=
  match a.priority_score, b.priority_score with
  | some pa, some pb => pb ≤ pa
  | _, _ => false

/-- The consecutive-pair order the ranking claim asserts of the final list:
the `priority_score` of a candidate is at least that of the next candidate
(false when either candidate carries no `priority_score`). -/
def priorityStepDesc (a b : Issue) : Prop :=
  priorityStepDescB a b = true

instance (a b : Issue) : Decidable (priorityStepDesc a b) :=
  inferInstanceAs (Decidable (priorityStepDescB a b = true))

/-- Executable check that consecutive elements of a list satisfy a Boolean
relation (used to evaluate chain properties on concrete outputs). -/
def chainB (R : Issue → Issue → Bool) : List Issue → Bool
  | [] => true
  | [_] => true
  | a :: b :: rest => R a b && chainB R (b :: rest)

/-- A bare candidate used by the concrete ranking examples. -/
def demoIssue (name : String) (page : Option Int) (conf : ℚ) : Issue :=
  { issue_id := 1
    category := "환경"
    issue_name := name
    content := ""
    matched_keywords := []
    page_number := page
    element_type := "NarrativeText"
    confidence := conf
    industry := "전력" }

/-- A weight table for the ranking examples: industry 전력 weights issue
기후변화 by 0.5. -/
def demoWeights : List (String × List (String × ℚ)) :=
  [("전력", [("기후변화", 1/2)])]

/-- Catalog entry with one distinguishing keyword, plus the high-quality
keyword 관리 when `withQuality` is set. -/
def demoEntry (kw : String) (withQuality : Bool) : IssueData :=
  { core_keywords := if withQuality then [kw, "관리"] else [kw]
    advanced_keywords := []
    industry_variants := [] }

/-- A 21-issue catalog: issues I01–I20 match keywords k01–k20 plus 관리,
issue I21 matches only k21. -/
def demoCatalog21 : List (String × IssueData) :=
  [ ("I01", demoEntry "k01" true), ("I02", demoEntry "k02" true),
    ("I03", demoEntry "k03" true), ("I04", demoEntry "k04" true),
    ("I05", demoEntry "k05" true), ("I06", demoEntry "k06" true),
    ("I07", demoEntry "k07" true), ("I08", demoEntry "k08" true),
    ("I09", demoEntry "k09" true), ("I10", demoEntry "k10" true),
    ("I11", demoEntry "k11" true), ("I12", demoEntry "k12" true),
    ("I13", demoEntry "k13" true), ("I14", demoEntry "k14" true),
    ("I15", demoEntry "k15" true), ("I16", demoEntry "k16" true),
    ("I17", demoEntry "k17" true), ("I18", demoEntry "k18" true),
    ("I19", demoEntry "k19" true), ("I20", demoEntry "k20" true),
    ("I21", demoEntry "k21" false) ]

/-- Constants built around `demoCatalog21`: no detection table (so the
detected industry is the fallback 기타), and a weight of 0.5 for issue I21
under 기타. -/
def exK : Constants :=
  { UNIVERSAL_ESG_ISSUES := [("환경(E)", demoCatalog21)]
    MATERIALITY_KEYWORDS := []
    AUTO_INDUSTRY_DETECTION := []
    INDUSTRY_SPECIFIC_KEYWORDS := []
    ISSUE_PRIORITY_WEIGHTS := [("기타", [("I21", 1/2)])] }

/-- One segment whose text contains all 21 demo keywords and 관리 (length
well above the 20-character relevance threshold), producing 21 deduplicated
candidates. -/
def exElement : Element :=
  { text := "k01 k02 k03 k04 k05 k06 k07 k08 k09 k10 k11 k12 k13 k14 k15 k16 k17 k18 k19 k20 k21 관리"
    page_number := some 1
    element_type := "NarrativeText" }

/-- Constants for the ranking-order counterexample: two issues, no detection
table and an empty weight table, so the detected industry 기타 has no weight
entry. -/
def c5K : Constants :=
  { UNIVERSAL_ESG_ISSUES :=
      [("환경(E)",
        [("기후변화", { core_keywords := ["기후"], advanced_keywords := [],
                        industry_variants := [] }),
         ("수자원", { core_keywords := ["수질"], advanced_keywords := [],
                      industry_variants := [] })])]
    MATERIALITY_KEYWORDS := []
    AUTO_INDUSTRY_DETECTION := []
    INDUSTRY_SPECIFIC_KEYWORDS := []
    ISSUE_PRIORITY_WEIGHTS := [] }

/-- A segment matching both issues of `c5K`. -/
def c5Element : Element :=
  { text := "기후 그리고 수질 관련 내용을 담은 긴 문단입니다"
    page_number := some 2
    element_type := "NarrativeText" }

/-- Detection table for the industry-detection examples: industry A has the
core-identity keyword 회사, industry B the four-character keyword 가나다라. -/
def detAuto : List (String × List String) :=
  [("A", ["회사"]), ("B", ["가나다라"])]

/-- Text on which industry B wins detection (A scores 10, B scores 15). -/
def detText : String := "회사회사가나다라가나다라가나다라가나다라가나다라"

/-- The same text with one more occurrence of A's core-identity keyword:
A rises to 15, tying B, and the first-seen tie-break hands A the win. -/
def detTextTie : String := detText ++ "회사"

/-- Text on which industry B wins detection with scores A 5, B 6. -/
def detTextW : String := "회사가나다라가나다라"

/-- The same text with one more 회사: A scores 10 and beats B outright. -/
def detTextW' : String := detTextW ++ "회사"

/-- External candidate for the merge examples. -/
def c7e1 : MIssue := { issue_name := "climate change" }

/-- A second external candidate similar to `c7e1` (overlap ratio 0.5). -/
def c7e2 : MIssue := { issue_name := "climate risk" }

/-- An internal candidate dissimilar from both external ones. -/
def c7i0 : MIssue := { issue_name := "수자원 관리" }

/-- Successful Gemini result carrying both external candidates. -/
def c7gBoth : GeminiResult :=
  { success := true, data := some { materiality_issues := [c7e1, c7e2] } }

/-- Successful Gemini result carrying one external candidate. -/
def c7gOne : GeminiResult :=
  { success := true, data := some { materiality_issues := [c7e1] } }

/-- The second element of `apply_industry_priority demoWeights [...] "전력"`
in the ranking witness: issue 수자원 has no weight entry, so it receives the
default multiplier. -/
def c1OutDefault : Issue :=
  { demoIssue "수자원" none (9/10) with
      priority_score := some (99/100), industry_weight := some (1/10) }

/-- Invariant of the `seen_issues` dict of `remove_duplicate_issues` after the
processed prefix of the input: every binding is keyed by its issue's dedup
key, keys are unique, every stored issue occurs in the prefix, dominates its
key group there, and is the first of its group to attain the maximal
confidence; and every processed issue's key is present. -/
def seenInv (m : List (String × Issue)) (processed : List Issue) : Prop :=
  (∀ p ∈ m, p.1 = dedupKey p.2) ∧
  (m.map Prod.fst).Nodup ∧
  (∀ p ∈ m, p.2 ∈ processed) ∧
  (∀ p ∈ m, ∀ x ∈ processed, dedupKey x = p.1 → x.confidence ≤ p.2.confidence) ∧
  (∀ p ∈ m, ∃ l1 l2, processed = l1 ++ p.2 :: l2 ∧
    ∀ x ∈ l1, dedupKey x = p.1 → x.confidence < p.2.confidence) ∧
  (∀ x ∈ processed, ∃ p ∈ m, p.1 = dedupKey x)

/-- Helper lemmas and claim theorems follow. -/

theorem alookup_mem {β : Type} {k : String} {v : β} :
    ∀ {l : List (String × β)}, alookup k l = some v → (k, v) ∈ l := by
  intro l
  induction l with
  | nil => intro h; simp [alookup] at h
  | cons p rest ih =>
    intro h
    rcases p with ⟨k', v'⟩
    by_cases hk : k' = k
    · subst hk
      simp [alookup] at h
      simp [h]
    · simp [alookup, hk] at h
      exact List.mem_cons_of_mem _ (ih h)

theorem alookup_eq_none {β : Type} {k : String} :
    ∀ {l : List (String × β)}, k ∉ l.map Prod.fst → alookup k l = none := by
  intro l
  induction l with
  | nil => intro _; rfl
  | cons p rest ih =>
    intro h
    rcases p with ⟨k', v'⟩
    simp only [List.map_cons, List.mem_cons] at h
    push_neg at h
    have hk : k' ≠ k := fun e => h.1 e.symm
    simp [alookup, hk]
    exact ih h.2

theorem alookup_of_mem_nodup {β : Type} {k : String} {v : β} :
    ∀ {l : List (String × β)}, (l.map Prod.fst).Nodup → (k, v) ∈ l →
      alookup k l = some v := by
  intro l
  induction l with
  | nil => intro _ h; simp at h
  | cons p rest ih =>
    intro hnd hm
    rcases p with ⟨k', v'⟩
    simp only [List.map_cons, List.nodup_cons] at hnd
    rcases List.mem_cons.1 hm with h | h
    · cases h
      simp [alookup]
    · have hk : k' ≠ k := by
        intro e
        subst e
        exact hnd.1 (List.mem_map.2 ⟨(k', v), h, rfl⟩)
      simp [alookup, hk]
      exact ih hnd.2 h

theorem snd_eq_of_nodup_keys {β : Type} {k : String} {v w : β}
    {l : List (String × β)} (hnd : (l.map Prod.fst).Nodup)
    (h1 : (k, v) ∈ l) (h2 : (k, w) ∈ l) : v = w := by
  have e1 := alookup_of_mem_nodup hnd h1
  have e2 := alookup_of_mem_nodup hnd h2
  rw [e1] at e2
  exact Option.some.inj e2

theorem pySortDescBy_perm {α : Type} (key : α → ℚ) (l : List α) :
    List.Perm (pySortDescBy key l) l :=
  List.perm_insertionSort _ l

theorem mem_pySortDescBy {α : Type} {key : α → ℚ} {l : List α} {a : α} :
    a ∈ pySortDescBy key l ↔ a ∈ l :=
  (pySortDescBy_perm key l).mem_iff

theorem length_pySortDescBy {α : Type} (key : α → ℚ) (l : List α) :
    (pySortDescBy key l).length = l.length :=
  (pySortDescBy_perm key l).length_eq

theorem pairwise_pySortDescBy {α : Type} (key : α → ℚ) (l : List α) :
    (pySortDescBy key l).Pairwise (fun a b => key b ≤ key a) := by
  haveI : IsTotal α (fun a b => key b ≤ key a) := ⟨fun a b => le_total (key b) (key a)⟩
  haveI : IsTrans α (fun a b => key b ≤ key a) :=
    ⟨fun _ _ _ hab hbc => le_trans hbc hab⟩
  exact List.sorted_insertionSort _ l

theorem apply_industry_priority_of_none
    {weights : List (String × List (String × ℚ))} {industry : String}
    (issues : List Issue) (h : alookup industry weights = none) :
    apply_industry_priority weights issues industry = issues := by
  unfold apply_industry_priority
  rw [h]

/-- C1.  Amended: when the detected industry has a weight-table entry, every
returned candidate carries `priority_score = confidence * (1 + weight)` when
the issue has an entry there and `confidence * 1.1` otherwise; but when the
industry is absent from the weight table the ranker returns the candidate
list unchanged — no `priority_score` is assigned at all (still not a
fault). -/
theorem C1_priority_default_amended :
    ∀ (weights : List (String × List (String × ℚ))) (issues : List Issue)
      (industry : String),
    (alookup industry weights = none →
      apply_industry_priority weights issues industry = issues) ∧
    (∀ ws, alookup industry weights = some ws →
      ∀ i ∈ apply_industry_priority weights issues industry,
        i.priority_score = some (match alookup i.issue_name ws with
          | some w => i.confidence * (1 + w)
          | none => i.confidence * 1.1) ∧
        i.industry_weight = some (match alookup i.issue_name ws with
          | some w => w
          | none => 0.1)) := by
  intro weights issues industry
  constructor
  · exact apply_industry_priority_of_none issues
  · intro ws hws i hi
    unfold apply_industry_priority at hi
    rw [hws] at hi
    rcases List.mem_map.1 (mem_pySortDescBy.1 hi) with ⟨j, _, rfl⟩
    cases h : alookup j.issue_name ws with
    | none => simp [h]
    | some w => simp [h]

set_option maxRecDepth 10000 in
unseal Rat.add Rat.mul Rat.inv Rat.sub Rat.ofScientific in
/-- C1 counterexample: with an empty weight table (so the industry 전력 is
absent from it) the ranker returns the candidate unchanged with
`priority_score = none`, not `confidence * 1.1` as the claim states. -/
theorem C1_priority_default_counterexample :
    demoIssue "기후변화" none (1/2) ∈
      apply_industry_priority [] [demoIssue "기후변화" none (1/2)] "전력" ∧
    (demoIssue "기후변화" none (1/2)).priority_score = none ∧
    (demoIssue "기후변화" none (1/2)).priority_score ≠
      some ((demoIssue "기후변화" none (1/2)).confidence * 1.1) := by
  refine ⟨?_, rfl, ?_⟩ <;> decide

set_option maxRecDepth 10000 in
unseal Rat.add Rat.mul Rat.inv Rat.sub Rat.ofScientific in
/-- C1 witness: with industry 전력 present in the weight table, the returned
candidate for issue 수자원 (no per-issue entry) carries the default
`confidence * 1.1`. -/
theorem C1_priority_default_witness :
    c1OutDefault ∈
      apply_industry_priority demoWeights
        [demoIssue "기후변화" none (3/5), demoIssue "수자원" none (9/10)] "전력" ∧
    c1OutDefault.priority_score = some (c1OutDefault.confidence * 1.1) := by
  have hmem : c1OutDefault ∈
      apply_industry_priority demoWeights
        [demoIssue "기후변화" none (3/5), demoIssue "수자원" none (9/10)] "전력" := by
    decide
  have h := (C1_priority_default_amended demoWeights
      [demoIssue "기후변화" none (3/5), demoIssue "수자원" none (9/10)] "전력").2
      [("기후변화", 1/2)] rfl c1OutDefault hmem
  exact ⟨hmem, h.1⟩

/-- C2.  Amended: the deduplicated candidates are sorted by confidence
descending, the priority scores are then computed and the priority re-sort
runs on the FULL deduplicated list, and only afterwards is the list truncated
to the top 20; the returned ranked issue list still has at most 20
entries. -/
theorem C2_truncation_order_amended :
    ∀ (K : Constants) (elements : List Element),
    (extract_materiality_issues_enhanced K elements).issues =
      (apply_industry_priority K.ISSUE_PRIORITY_WEIGHTS
        (pySortDescBy (fun i => i.confidence)
          (remove_duplicate_issues (candidatesOf K elements)))
        (detectedOf K elements)).take 20 ∧
    (extract_materiality_issues_enhanced K elements).issues.length ≤ 20 := by
  intro K elements
  refine ⟨rfl, ?_⟩
  exact List.length_take_le 20 _

set_option maxRecDepth 20000 in
unseal Rat.add Rat.mul Rat.inv Rat.sub Rat.ofScientific in
/-- C2 counterexample: on a catalog of 21 issues the pipeline's returned list
differs from the spec's order of steps (truncate to 20 first, then rank):
the code ranks the full deduplicated list first, which lets the heavily
weighted issue I21 enter the top 20. -/
theorem C2_truncation_order_counterexample :
    (extract_materiality_issues_enhanced exK [exElement]).issues ≠
      spec_truncate_before_ranking exK [exElement] := by
  decide

/-- C8.  Determinism: the pipeline is a pure function of the catalogs and the
segment list, so two runs on the same input yield equal `ExtractionResult`
values. -/
theorem C8_determinism :
    ∀ (K : Constants) (elements : List Element),
    extract_materiality_issues_enhanced K elements =
      extract_materiality_issues_enhanced K elements :=
  fun _ _ => rfl

/-- C10.  When the Gemini result has no success flag set or no data payload,
the merge returns the internal candidate list unchanged. -/
theorem C10_merge_absent_data :
    ∀ (internal : List MIssue) (gr : GeminiResult),
    gr.success = false ∨ gr.data = none →
    merge_extraction_results internal gr = internal := by
  intro internal gr h
  rcases gr with ⟨s, d⟩
  rcases h with h | h
  · simp only at h
    subst h
    rfl
  · simp only at h
    subst h
    cases s <;> rfl

/-- C10 witness: a failed Gemini result leaves a concrete internal list
untouched. -/
theorem C10_merge_absent_data_witness :
    merge_extraction_results [c7i0] { success := false, data := none } = [c7i0] :=
  C10_merge_absent_data [c7i0] { success := false, data := none } (Or.inl rfl)

theorem merge_foldl_eq_loop :
    ∀ (gs : List MIssue) (acc : List MIssue),
    gs.foldl
      (fun merged g =>
        if merged.any (fun existing => _is_similar_issue g existing) then merged
        else merged ++ [{ g with source := some "gemini" }]) acc =
      merge_append_unless_similar acc gs := by
  intro gs
  induction gs with
  | nil => intro acc; rfl
  | cons g rest ih =>
    intro acc
    simp only [List.foldl_cons, merge_append_unless_similar]
    by_cases h : (acc.any fun existing => _is_similar_issue g existing) = true
    · rw [if_pos h, if_pos h]
      exact ih acc
    · rw [if_neg h, if_neg h]
      exact ih _

theorem merge_loop_extends :
    ∀ (gs : List MIssue) (merged : List MIssue),
    ∃ tail, merge_append_unless_similar merged gs = merged ++ tail ∧
      ∀ e ∈ tail, e.source = some "gemini" := by
  intro gs
  induction gs with
  | nil => intro merged; exact ⟨[], by simp [merge_append_unless_similar]⟩
  | cons g rest ih =>
    intro merged
    simp only [merge_append_unless_similar]
    by_cases h : merged.any (fun existing => _is_similar_issue g existing)
    · simp only [h, if_true]
      exact ih merged
    · simp only [h, if_false]
      rcases ih (merged ++ [{ g with source := some "gemini" }]) with ⟨tail, he, hs⟩
      refine ⟨{ g with source := some "gemini" } :: tail, ?_, ?_⟩
      · rw [he]
        simp
      · intro e hm
        rcases List.mem_cons.1 hm with h1 | h1
        · subst h1; rfl
        · exact hs e h1

/-- C7.  Amended: an external candidate is discarded exactly when its
word-overlap similarity exceeds 0.3 against some candidate already in the
GROWING merged list — the internal candidates or a previously appended
external candidate — not only against internally produced ones; the retained
external candidates are appended after the unchanged internal list, tagged
with `source = "gemini"`, and no re-ranking is performed by the merge. -/
theorem C7_merge_rule_amended :
    ∀ (internal : List MIssue) (gr : GeminiResult) (d : GeminiData),
    gr.success = true → gr.data = some d →
    merge_extraction_results internal gr =
      merge_append_unless_similar internal d.materiality_issues ∧
    ∃ tail, merge_extraction_results internal gr = internal ++ tail ∧
      ∀ e ∈ tail, e.source = some "gemini" := by
  intro internal gr d hs hd
  rcases gr with ⟨s, dd⟩
  simp only at hs hd
  subst hs
  subst hd
  have he : merge_extraction_results internal ⟨true, some d⟩ =
      merge_append_unless_similar internal d.materiality_issues := by
    unfold merge_extraction_results
    simp only [Bool.not_true, Bool.false_eq_true, if_false]
    exact merge_foldl_eq_loop d.materiality_issues internal
  refine ⟨he, ?_⟩
  rw [he]
  exact merge_loop_extends d.materiality_issues internal

unseal Rat.add Rat.mul Rat.inv Rat.sub Rat.ofScientific in
/-- C7 counterexample: with no internal candidates at all, the code still
discards the second external candidate (similar to the first external one,
overlap 0.5 > 0.3), while the spec's rule — compare against internally
produced candidates only — keeps both. -/
theorem C7_merge_rule_counterexample :
    merge_extraction_results [] c7gBoth ≠ merge_per_spec [] [c7e1, c7e2] ∧
    merge_extraction_results [] c7gBoth = [{ c7e1 with source := some "gemini" }] ∧
    merge_per_spec [] [c7e1, c7e2] =
      [{ c7e1 with source := some "gemini" }, { c7e2 with source := some "gemini" }] := by
  refine ⟨?_, ?_, ?_⟩ <;> decide

/-- C7 witness: a successful result with one external candidate merges into a
concrete internal list exactly as the growing-list loop describes. -/
theorem C7_merge_rule_witness :
    merge_extraction_results [c7i0] c7gOne =
      merge_append_unless_similar [c7i0] [c7e1] :=
  (C7_merge_rule_amended [c7i0] c7gOne { materiality_issues := [c7e1] } rfl rfl).1

theorem updateSeen_not_mem :
    ∀ {m : List (String × Issue)} {i : Issue}, dedupKey i ∉ m.map Prod.fst →
    updateSeen m i = m ++ [(dedupKey i, i)] := by
  intro m
  induction m with
  | nil => intro i _; rfl
  | cons p rest ih =>
    intro i h
    rcases p with ⟨k, old⟩
    simp only [List.map_cons, List.mem_cons] at h
    push_neg at h
    unfold updateSeen
    rw [if_neg (fun e => h.1 e.symm)]
    rw [ih h.2]
    simp

theorem updateSeen_mem_split :
    ∀ {m1 : List (String × Issue)} {m2 : List (String × Issue)} {old i : Issue},
    dedupKey i ∉ m1.map Prod.fst →
    updateSeen (m1 ++ (dedupKey i, old) :: m2) i =
      if old.confidence < i.confidence then m1 ++ (dedupKey i, i) :: m2
      else m1 ++ (dedupKey i, old) :: m2 := by
  intro m1
  induction m1 with
  | nil =>
    intro m2 old i _
    simp only [List.nil_append]
    unfold updateSeen
    rw [if_pos rfl]
  | cons p rest ih =>
    intro m2 old i h
    rcases p with ⟨k, v⟩
    simp only [List.map_cons, List.mem_cons] at h
    push_neg at h
    simp only [List.cons_append]
    unfold updateSeen
    rw [if_neg (fun e => h.1 e.symm)]
    rw [ih h.2]
    split <;> rfl

theorem mem_keys_split :
    ∀ {m : List (String × Issue)} {key : String}, key ∈ m.map Prod.fst →
    ∃ m1 old m2, m = m1 ++ (key, old) :: m2 ∧ key ∉ m1.map Prod.fst := by
  intro m
  induction m with
  | nil => intro key h; simp at h
  | cons p rest ih =>
    intro key h
    rcases p with ⟨k, v⟩
    by_cases hk : k = key
    · subst hk
      exact ⟨[], v, rest, by simp, by simp⟩
    · have h' : key ∈ rest.map Prod.fst := by
        simp only [List.map_cons, List.mem_cons] at h
        rcases h with h | h
        · exact absurd h.symm hk
        · exact h
      rcases ih h' with ⟨m1, old, m2, he, hn⟩
      refine ⟨(k, v) :: m1, old, m2, by rw [he]; rfl, ?_⟩
      simp only [List.map_cons, List.mem_cons]
      push_neg
      exact ⟨fun e => hk e.symm, hn⟩

theorem seenInv_step {m : List (String × Issue)} {processed : List Issue}
    {i : Issue} (h : seenInv m processed) :
    seenInv (updateSeen m i) (processed ++ [i]) := by
  obtain ⟨hkey, hnd, hmem, hmax, hfirst, hcover⟩ := h
  by_cases hk : dedupKey i ∈ m.map Prod.fst
  · rcases mem_keys_split hk with ⟨m1, old, m2, rfl, hnotm1⟩
    have hndk : (m1.map Prod.fst ++ dedupKey i :: m2.map Prod.fst).Nodup := by
      simpa using hnd
    have hKm2 : dedupKey i ∉ m2.map Prod.fst := by
      have hsub : (dedupKey i :: m2.map Prod.fst).Nodup :=
        (List.sublist_append_right _ _).nodup hndk
      exact (List.nodup_cons.1 hsub).1
    have hold : (dedupKey i, old) ∈ m1 ++ (dedupKey i, old) :: m2 := by simp
    have hqu : ∀ q ∈ m1 ++ (dedupKey i, old) :: m2, q.1 = dedupKey i →
        q = (dedupKey i, old) := by
      intro q hq hq1
      rcases List.mem_append.1 hq with hq | hq
      · exact absurd (hq1 ▸ List.mem_map.2 ⟨q, hq, rfl⟩) hnotm1
      · rcases List.mem_cons.1 hq with hq | hq
        · exact hq
        · exact absurd (hq1 ▸ List.mem_map.2 ⟨q, hq, rfl⟩) hKm2
    rw [updateSeen_mem_split hnotm1]
    by_cases hc : old.confidence < i.confidence
    · rw [if_pos hc]
      refine ⟨?_, ?_, ?_, ?_, ?_, ?_⟩
      · intro p hp
        rcases List.mem_append.1 hp with hp | hp
        · exact hkey p (List.mem_append_left _ hp)
        · rcases List.mem_cons.1 hp with hp | hp
          · subst hp; rfl
          · exact hkey p (List.mem_append_right _ (List.mem_cons_of_mem _ hp))
      · simpa using hndk
      · intro p hp
        rcases List.mem_append.1 hp with hp | hp
        · exact List.mem_append_left _ (hmem p (List.mem_append_left _ hp))
        · rcases List.mem_cons.1 hp with hp | hp
          · subst hp; simp
          · exact List.mem_append_left _
              (hmem p (List.mem_append_right _ (List.mem_cons_of_mem _ hp)))
      · intro p hp x hx hkx
        rcases List.mem_append.1 hp with hp | hp
        · rcases List.mem_append.1 hx with hx | hx
          · exact hmax p (List.mem_append_left _ hp) x hx hkx
          · simp only [List.mem_singleton] at hx
            subst x
            exact absurd (hkx ▸ List.mem_map.2 ⟨p, hp, rfl⟩) hnotm1
        · rcases List.mem_cons.1 hp with hp | hp
          · subst hp
            rcases List.mem_append.1 hx with hx | hx
            · exact le_trans (hmax (dedupKey i, old) hold x hx hkx) (le_of_lt hc)
            · simp only [List.mem_singleton] at hx
              subst hx
              exact le_refl _
          · rcases List.mem_append.1 hx with hx | hx
            · exact hmax p (List.mem_append_right _ (List.mem_cons_of_mem _ hp)) x hx hkx
            · simp only [List.mem_singleton] at hx
              have hpm : p.1 ∈ m2.map Prod.fst := List.mem_map.2 ⟨p, hp, rfl⟩
              rw [← hkx, hx] at hpm
              exact absurd hpm hKm2
      · intro p hp
        rcases List.mem_append.1 hp with hp | hp
        · rcases hfirst p (List.mem_append_left _ hp) with ⟨l1, l2, he, hl⟩
          exact ⟨l1, l2 ++ [i], by rw [he]; simp, hl⟩
        · rcases List.mem_cons.1 hp with hp | hp
          · subst hp
            refine ⟨processed, [], by simp, ?_⟩
            intro x hx hkx
            exact lt_of_le_of_lt (hmax (dedupKey i, old) hold x hx hkx) hc
          · rcases hfirst p (List.mem_append_right _ (List.mem_cons_of_mem _ hp))
              with ⟨l1, l2, he, hl⟩
            exact ⟨l1, l2 ++ [i], by rw [he]; simp, hl⟩
      · intro x hx
        rcases List.mem_append.1 hx with hx | hx
        · rcases hcover x hx with ⟨q, hq, hq1⟩
          rcases List.mem_append.1 hq with hq | hq
          · exact ⟨q, List.mem_append_left _ hq, hq1⟩
          · rcases List.mem_cons.1 hq with hq | hq
            · refine ⟨(dedupKey i, i), List.mem_append_right _ (List.mem_cons_self _ _), ?_⟩
              rw [← hq1, hq]
            · exact ⟨q, List.mem_append_right _ (List.mem_cons_of_mem _ hq), hq1⟩
        · simp only [List.mem_singleton] at hx
          subst x
          exact ⟨(dedupKey i, i), List.mem_append_right _ (List.mem_cons_self _ _), rfl⟩
    · rw [if_neg hc]
      have hic : i.confidence ≤ old.confidence := not_lt.1 hc
      refine ⟨hkey, hnd, ?_, ?_, ?_, ?_⟩
      · intro p hp
        exact List.mem_append_left _ (hmem p hp)
      · intro p hp x hx hkx
        rcases List.mem_append.1 hx with hx | hx
        · exact hmax p hp x hx hkx
        · simp only [List.mem_singleton] at hx
          subst x
          have hp' : p = (dedupKey i, old) := hqu p hp hkx.symm
          rw [hp']
          exact hic
      · intro p hp
        rcases hfirst p hp with ⟨l1, l2, he, hl⟩
        exact ⟨l1, l2 ++ [i], by rw [he]; simp, hl⟩
      · intro x hx
        rcases List.mem_append.1 hx with hx | hx
        · exact hcover x hx
        · simp only [List.mem_singleton] at hx
          subst x
          exact ⟨(dedupKey i, old), hold, rfl⟩
  · rw [updateSeen_not_mem hk]
    have hcontra : ∀ q ∈ m, q.1 = dedupKey i → False := by
      intro q hq hq1
      exact hk (hq1 ▸ List.mem_map.2 ⟨q, hq, rfl⟩)
    refine ⟨?_, ?_, ?_, ?_, ?_, ?_⟩
    · intro p hp
      rcases List.mem_append.1 hp with hp | hp
      · exact hkey p hp
      · simp only [List.mem_singleton] at hp
        subst hp
        rfl
    · simp only [List.map_append, List.map_singleton]
      refine List.Nodup.append hnd (by simp) ?_
      intro a ha hb
      simp only [List.mem_singleton] at hb
      subst hb
      exact hk ha
    · intro p hp
      rcases List.mem_append.1 hp with hp | hp
      · exact List.mem_append_left _ (hmem p hp)
      · simp only [List.mem_singleton] at hp
        subst hp
        simp
    · intro p hp x hx hkx
      rcases List.mem_append.1 hp with hp | hp
      · rcases List.mem_append.1 hx with hx | hx
        · exact hmax p hp x hx hkx
        · simp only [List.mem_singleton] at hx
          subst x
          exact absurd (hkx ▸ List.mem_map.2 ⟨p, hp, rfl⟩) hk
      · simp only [List.mem_singleton] at hp
        subst hp
        rcases List.mem_append.1 hx with hx | hx
        · rcases hcover x hx with ⟨q, hq, hq1⟩
          exact absurd (hq1.trans hkx) (hcontra q hq)
        · simp only [List.mem_singleton] at hx
          subst x
          exact le_refl _
    · intro p hp
      rcases List.mem_append.1 hp with hp | hp
      · rcases hfirst p hp with ⟨l1, l2, he, hl⟩
        exact ⟨l1, l2 ++ [i], by rw [he]; simp, hl⟩
      · simp only [List.mem_singleton] at hp
        subst hp
        refine ⟨processed, [], by simp, ?_⟩
        intro x hx hkx
        rcases hcover x hx with ⟨q, hq, hq1⟩
        exact absurd (hq1.trans hkx) (hcontra q hq)
    · intro x hx
      rcases List.mem_append.1 hx with hx | hx
      · rcases hcover x hx with ⟨q, hq, hq1⟩
        exact ⟨q, List.mem_append_left _ hq, hq1⟩
      · simp only [List.mem_singleton] at hx
        refine ⟨(dedupKey i, i), List.mem_append_right _ (by simp), ?_⟩
        rw [hx]

theorem seenInv_foldl :
    ∀ (l : List Issue) (m : List (String × Issue)) (processed : List Issue),
    seenInv m processed → seenInv (l.foldl updateSeen m) (processed ++ l) := by
  intro l
  induction l with
  | nil => intro m processed h; simpa using h
  | cons x xs ih =>
    intro m processed h
    have h2 := ih (updateSeen m x) (processed ++ [x]) (seenInv_step h)
    simpa using h2

theorem seenInv_remove (l : List Issue) : seenInv (l.foldl updateSeen []) l := by
  have h0 : seenInv ([] : List (String × Issue)) ([] : List Issue) := by
    refine ⟨?_, ?_, ?_, ?_, ?_, ?_⟩ <;> simp
  simpa using seenInv_foldl l [] [] h0

theorem mem_of_mem_remove_duplicate {s : Issue} {l : List Issue}
    (h : s ∈ remove_duplicate_issues l) : s ∈ l := by
  obtain ⟨_, _, hmem, _, _, _⟩ := seenInv_remove l
  rcases List.mem_map.1 h with ⟨p, hp, rfl⟩
  exact hmem p hp

/-- C3.  The deduplicator keeps at most one candidate per
`(issue_name, page_number)` key; each survivor occurs in the input, dominates
every input candidate of its key group in confidence, and is the first of its
group to attain that maximal confidence; and every input candidate's key is
represented among the survivors. -/
theorem C3_dedup_correctness :
    ∀ (l : List Issue),
    ((remove_duplicate_issues l).map dedupKey).Nodup ∧
    (remove_duplicate_issues l).Pairwise
      (fun a b => ¬(a.issue_name = b.issue_name ∧ a.page_number = b.page_number)) ∧
    (∀ s ∈ remove_duplicate_issues l,
      s ∈ l ∧
      (∀ x ∈ l, x.issue_name = s.issue_name → x.page_number = s.page_number →
        x.confidence ≤ s.confidence) ∧
      (∃ l1 l2, l = l1 ++ s :: l2 ∧
        ∀ x ∈ l1, x.issue_name = s.issue_name → x.page_number = s.page_number →
          x.confidence < s.confidence)) ∧
    (∀ x ∈ l, ∃ s ∈ remove_duplicate_issues l, dedupKey s = dedupKey x) := by
  intro l
  obtain ⟨hkey, hnd, hmem, hmax, hfirst, hcover⟩ := seenInv_remove l
  have hmapeq : (remove_duplicate_issues l).map dedupKey =
      (l.foldl updateSeen []).map Prod.fst := by
    unfold remove_duplicate_issues
    rw [List.map_map]
    refine List.map_congr_left ?_
    intro p hp
    exact (hkey p hp).symm
  have hkeynd : ((remove_duplicate_issues l).map dedupKey).Nodup := by
    rw [hmapeq]; exact hnd
  refine ⟨hkeynd, ?_, ?_, ?_⟩
  · have hpw : (remove_duplicate_issues l).Pairwise
        (fun a b => dedupKey a ≠ dedupKey b) :=
      List.pairwise_map.1 hkeynd
    refine hpw.imp ?_
    intro a b hne hcontra
    exact hne (by unfold dedupKey; rw [hcontra.1, hcontra.2])
  · intro s hs
    rcases List.mem_map.1 hs with ⟨p, hp, rfl⟩
    have hpk : p.1 = dedupKey p.2 := hkey p hp
    refine ⟨hmem p hp, ?_, ?_⟩
    · intro x hx hn hpg
      refine hmax p hp x hx ?_
      rw [hpk]
      unfold dedupKey
      rw [hn, hpg]
    · rcases hfirst p hp with ⟨l1, l2, he, hl⟩
      refine ⟨l1, l2, he, ?_⟩
      intro x hx hn hpg
      refine hl x hx ?_
      rw [hpk]
      unfold dedupKey
      rw [hn, hpg]
  · intro x hx
    rcases hcover x hx with ⟨p, hp, hp1⟩
    refine ⟨p.2, List.mem_map.2 ⟨p, hp, rfl⟩, ?_⟩
    rw [← (hkey p hp)]
    exact hp1

set_option maxRecDepth 10000 in
unseal Rat.add Rat.mul Rat.inv Rat.sub Rat.ofScientific in
/-- C3 witness: among three same-key candidates with confidences 0.5, 0.7,
0.6, the deduplicator keeps the 0.7 one, and the theorem yields the
domination of the 0.6 one. -/
theorem C3_dedup_correctness_witness :
    demoIssue "기후변화" (some 1) (7/10) ∈
      remove_duplicate_issues
        [demoIssue "기후변화" (some 1) (1/2), demoIssue "기후변화" (some 1) (7/10),
         demoIssue "기후변화" (some 1) (3/5)] ∧
    (demoIssue "기후변화" (some 1) (3/5)).confidence ≤
      (demoIssue "기후변화" (some 1) (7/10)).confidence := by
  have hm : demoIssue "기후변화" (some 1) (7/10) ∈
      remove_duplicate_issues
        [demoIssue "기후변화" (some 1) (1/2), demoIssue "기후변화" (some 1) (7/10),
         demoIssue "기후변화" (some 1) (3/5)] := by decide
  have h := (C3_dedup_correctness
      [demoIssue "기후변화" (some 1) (1/2), demoIssue "기후변화" (some 1) (7/10),
       demoIssue "기후변화" (some 1) (3/5)]).2.2.1
      (demoIssue "기후변화" (some 1) (7/10)) hm
  exact ⟨hm, h.2.1 (demoIssue "기후변화" (some 1) (3/5)) (by decide) rfl rfl⟩

theorem foldl_extends {β : Type} (f : List Issue → β → List Issue)
    (Q : Issue → Prop)
    (h : ∀ acc b, ∃ new, f acc b = acc ++ new ∧ ∀ i ∈ new, Q i) :
    ∀ (l : List β) (acc : List Issue),
    ∃ new, l.foldl f acc = acc ++ new ∧ ∀ i ∈ new, Q i := by
  intro l
  induction l with
  | nil => intro acc; exact ⟨[], by simp, by simp⟩
  | cons b bs ih =>
    intro acc
    rcases h acc b with ⟨n1, he1, hq1⟩
    rcases ih (f acc b) with ⟨n2, he2, hq2⟩
    refine ⟨n1 ++ n2, ?_, ?_⟩
    · rw [List.foldl_cons, he2, he1, List.append_assoc]
    · intro i hi
      rcases List.mem_append.1 hi with hi | hi
      · exact hq1 i hi
      · exact hq2 i hi

theorem mem_candidatesOf {K : Constants} {elements : List Element} {i : Issue}
    (hi : i ∈ candidatesOf K elements) :
    ∃ n cat name e matched dyn,
      i = mkCandidate K (detectedOf K elements) n cat name e matched dyn := by
  classical
  set det := detectedOf K elements with hdet
  set Q : Issue → Prop :=
    fun j => ∃ n cat name e matched dyn, j = mkCandidate K det n cat name e matched dyn
    with hQ
  have hissue : ∀ (e : Element) (cat : String) acc entry,
      ∃ new, scanIssue K det e cat acc entry = acc ++ new ∧ ∀ j ∈ new, Q j := by
    intro e cat acc entry
    unfold scanIssue
    by_cases hm :
        (get_dynamic_keywords_for_issue K entry.1 det).filter
          (fun kw => pyContains e.text kw) = []
    · rw [if_pos hm]
      exact ⟨[], by simp, by simp⟩
    · rw [if_neg hm]
      refine ⟨[mkCandidate K det acc.length cat entry.1 e
          ((get_dynamic_keywords_for_issue K entry.1 det).filter
            (fun kw => pyContains e.text kw))
          (get_dynamic_keywords_for_issue K entry.1 det)], rfl, ?_⟩
      intro j hj
      simp only [List.mem_singleton] at hj
      subst hj
      exact ⟨acc.length, cat, entry.1, e, _, _, rfl⟩
  have helem : ∀ acc e,
      ∃ new, scanElement K det acc e = acc ++ new ∧ ∀ j ∈ new, Q j := by
    intro acc e
    unfold scanElement
    by_cases hrel : esgRelated K e.text
    · rw [if_pos hrel]
      exact foldl_extends _ Q
        (fun acc2 cat => foldl_extends _ Q (hissue e cat.1) cat.2 acc2)
        K.UNIVERSAL_ESG_ISSUES acc
    · rw [if_neg hrel]
      exact ⟨[], by simp, by simp⟩
  rcases foldl_extends _ Q helem elements [] with ⟨new, he, hq⟩
  unfold candidatesOf at hi
  rw [← hdet, he] at hi
  simp only [List.nil_append] at hi
  exact hq i hi

theorem calc_conf_bounds (weights : List (String × List (String × ℚ)))
    (text issue_name : String) (matched allk : List String) (industry : String)
    (hW : ∀ p ∈ weights, ∀ q ∈ p.2, 0 ≤ q.2) :
    0 ≤ calculate_enhanced_confidence weights text issue_name matched allk industry ∧
    calculate_enhanced_confidence weights text issue_name matched allk industry ≤ 1 := by
  unfold calculate_enhanced_confidence
  refine ⟨le_min ?_ (by norm_num), min_le_right _ _⟩
  have h1 : (0 : ℚ) ≤
      (if allk = [] then 0 else (matched.length : ℚ) / (allk.length : ℚ)) * 0.5 := by
    refine mul_nonneg ?_ (by norm_num)
    split
    · exact le_refl 0
    · exact div_nonneg (Nat.cast_nonneg _) (Nat.cast_nonneg _)
  have h2 : (0 : ℚ) ≤ (if pyContains text issue_name then 0.3 else 0) := by
    split <;> norm_num
  have h3 : (0 : ℚ) ≤
      (if ["중대성", "materiality", "핵심이슈", "우선순위"].any (fun w => pyContains text w)
        then 0.2 else 0) := by
    split <;> norm_num
  have h4 : (0 : ℚ) ≤
      (if ["│", "─", "표", "매트릭스", "순위", "높음", "보통", "낮음"].any
          (fun w => pyContains text w) then 0.15 else 0) := by
    split <;> norm_num
  have h5 : (0 : ℚ) ≤
      (match alookup industry weights with
        | some ws => ((alookup issue_name ws).getD 0) * 0.1
        | none => 0) := by
    cases h : alookup industry weights with
    | none => exact le_refl 0
    | some ws =>
      refine mul_nonneg ?_ (by norm_num)
      cases h2 : alookup issue_name ws with
      | none => simp
      | some w =>
        simp only [Option.getD_some]
        exact hW _ (alookup_mem h) _ (alookup_mem h2)
  have h6 : (0 : ℚ) ≤
      (if ["평가", "관리", "전략", "개선", "목표", "성과"].any
          (fun w => matched.contains w) then 0.1 else 0) := by
    split <;> norm_num
  have := add_nonneg (add_nonneg (add_nonneg (add_nonneg (add_nonneg h1 h2) h3) h4) h5) h6
  exact this

theorem mem_prioritized_conf {K : Constants} {elements : List Element} {i : Issue}
    (hi : i ∈ prioritizedOf K elements) :
    ∃ j, j ∈ candidatesOf K elements ∧ i.confidence = j.confidence := by
  unfold prioritizedOf apply_industry_priority at hi
  cases h : alookup (detectedOf K elements) K.ISSUE_PRIORITY_WEIGHTS with
  | none =>
    rw [h] at hi
    have hm := mem_pySortDescBy.1 hi
    exact ⟨i, mem_of_mem_remove_duplicate hm, rfl⟩
  | some ws =>
    rw [h] at hi
    rcases List.mem_map.1 (mem_pySortDescBy.1 hi) with ⟨j, hj, rfl⟩
    have hj2 : j ∈ candidatesOf K elements :=
      mem_of_mem_remove_duplicate (mem_pySortDescBy.1 hj)
    exact ⟨j, hj2, by cases alookup j.issue_name ws <;> rfl⟩

/-- C4.  Whenever every weight in the priority table is non-negative (as in
the shipped tables, whose weights are positive fractions), the Confidence
Scorer returns a value in [0, 1], and consequently every candidate in the
pipeline output carries a confidence in [0, 1]. -/
theorem C4_confidence_bounds :
    ∀ (K : Constants) (text issue_name : String) (matched allk : List String)
      (industry : String) (elements : List Element),
    (∀ p ∈ K.ISSUE_PRIORITY_WEIGHTS, ∀ q ∈ p.2, 0 ≤ q.2) →
    (0 ≤ calculate_enhanced_confidence K.ISSUE_PRIORITY_WEIGHTS text issue_name
        matched allk industry ∧
      calculate_enhanced_confidence K.ISSUE_PRIORITY_WEIGHTS text issue_name
        matched allk industry ≤ 1) ∧
    (∀ i ∈ (extract_materiality_issues_enhanced K elements).issues,
      0 ≤ i.confidence ∧ i.confidence ≤ 1) := by
  intro K text issue_name matched allk industry elements hW
  constructor
  · exact calc_conf_bounds K.ISSUE_PRIORITY_WEIGHTS text issue_name matched allk
      industry hW
  · intro i hi
    have hi2 : i ∈ (prioritizedOf K elements).take 20 := hi
    rcases mem_prioritized_conf ((List.take_sublist _ _).subset hi2) with ⟨j, hj, he⟩
    rcases mem_candidatesOf hj with ⟨n, cat, name, e, matched2, dyn, rfl⟩
    rw [he]
    simpa [mkCandidate] using
      calc_conf_bounds K.ISSUE_PRIORITY_WEIGHTS e.text name matched2 dyn
        (detectedOf K elements) hW

set_option maxRecDepth 10000 in
unseal Rat.add Rat.mul Rat.inv Rat.sub Rat.ofScientific in
/-- C4 witness: concrete bounds instance for the Confidence Scorer under the
demo weight table. -/
theorem C4_confidence_bounds_witness :
    0 ≤ calculate_enhanced_confidence exK.ISSUE_PRIORITY_WEIGHTS
        "기후 변화 대응 전략" "기후변화" ["기후"] ["기후"] "기타" ∧
    calculate_enhanced_confidence exK.ISSUE_PRIORITY_WEIGHTS
        "기후 변화 대응 전략" "기후변화" ["기후"] ["기후"] "기타" ≤ 1 :=
  (C4_confidence_bounds exK "기후 변화 대응 전략" "기후변화" ["기후"] ["기후"]
    "기타" [] (by decide)).1

theorem ps_none_candidates {K : Constants} {elements : List Element} {i : Issue}
    (hi : i ∈ candidatesOf K elements) : i.priority_score = none := by
  rcases mem_candidatesOf hi with ⟨n, cat, name, e, matched, dyn, rfl⟩
  rfl

theorem scored_ps_some {ws : List (String × ℚ)} {issues : List Issue} {x : Issue}
    (hx : x ∈ issues.map (fun i =>
      match alookup i.issue_name ws with
      | some w =>
        { i with priority_score := some (i.confidence * (1 + w)),
                 industry_weight := some w }
      | none =>
        { i with priority_score := some (i.confidence * 1.1),
                 industry_weight := some 0.1 })) :
    ∃ q, x.priority_score = some q := by
  rcases List.mem_map.1 hx with ⟨j, _, rfl⟩
  cases alookup j.issue_name ws
  · exact ⟨j.confidence * 1.1, rfl⟩
  · exact ⟨_, rfl⟩

/-- C5.  Amended: when the detected industry has an entry in the weight table
the returned list is non-increasing in `priority_score`; when it has none, the
ranker never assigns `priority_score` (every returned candidate carries none,
so the claim's comparison is undefined) and the list is non-increasing in
`confidence` instead. -/
theorem C5_ranking_order_amended :
    ∀ (K : Constants) (elements : List Element),
    (∀ ws, alookup (detectedOf K elements) K.ISSUE_PRIORITY_WEIGHTS = some ws →
      (extract_materiality_issues_enhanced K elements).issues.Chain' priorityStepDesc) ∧
    (alookup (detectedOf K elements) K.ISSUE_PRIORITY_WEIGHTS = none →
      (∀ i ∈ (extract_materiality_issues_enhanced K elements).issues,
        i.priority_score = none) ∧
      (extract_materiality_issues_enhanced K elements).issues.Chain'
        (fun a b => b.confidence ≤ a.confidence)) := by
  intro K elements
  constructor
  · intro ws hws
    have hissues : (extract_materiality_issues_enhanced K elements).issues =
        (prioritizedOf K elements).take 20 := rfl
    rw [hissues]
    have hpr : prioritizedOf K elements =
        pySortDescBy (fun i => i.priority_score.getD 0)
          ((uniqueSortedOf K elements).map (fun i =>
            match alookup i.issue_name ws with
            | some w =>
              { i with priority_score := some (i.confidence * (1 + w)),
                       industry_weight := some w }
            | none =>
              { i with priority_score := some (i.confidence * 1.1),
                       industry_weight := some 0.1 })) := by
      unfold prioritizedOf apply_industry_priority
      rw [hws]
    have hpw := pairwise_pySortDescBy (fun i : Issue => i.priority_score.getD 0)
      ((uniqueSortedOf K elements).map (fun i =>
        match alookup i.issue_name ws with
        | some w =>
          { i with priority_score := some (i.confidence * (1 + w)),
                   industry_weight := some w }
        | none =>
          { i with priority_score := some (i.confidence * 1.1),
                   industry_weight := some 0.1 }))
    have hpw2 : (prioritizedOf K elements).Pairwise priorityStepDesc := by
      rw [hpr]
      refine hpw.imp_of_mem ?_
      intro a b ha hb hle
      rcases scored_ps_some (mem_pySortDescBy.1 ha) with ⟨pa, hpa⟩
      rcases scored_ps_some (mem_pySortDescBy.1 hb) with ⟨pb, hpb⟩
      have hred : priorityStepDescB a b = decide (pb ≤ pa) := by
        unfold priorityStepDescB
        rw [hpa, hpb]
      unfold priorityStepDesc
      rw [hred]
      rw [hpa, hpb] at hle
      simp only [Option.getD_some] at hle
      exact decide_eq_true hle
    exact (List.Pairwise.sublist (List.take_sublist 20 _) hpw2).chain'
  · intro hnone
    have hpr : prioritizedOf K elements = uniqueSortedOf K elements := by
      unfold prioritizedOf apply_industry_priority
      rw [hnone]
    constructor
    · intro i hi
      have hi2 : i ∈ (prioritizedOf K elements).take 20 := hi
      have hi3 : i ∈ prioritizedOf K elements := (List.take_sublist _ _).subset hi2
      rw [hpr] at hi3
      exact ps_none_candidates
        (mem_of_mem_remove_duplicate (mem_pySortDescBy.1 hi3))
    · have hissues : (extract_materiality_issues_enhanced K elements).issues =
          (prioritizedOf K elements).take 20 := rfl
      rw [hissues, hpr]
      have hpw := pairwise_pySortDescBy (fun i : Issue => i.confidence)
        (remove_duplicate_issues (candidatesOf K elements))
      exact (List.Pairwise.sublist (List.take_sublist 20 _) hpw).chain'

theorem chainB_iff (R : Issue → Issue → Bool) :
    ∀ (l : List Issue), chainB R l = true ↔ l.Chain' (fun a b => R a b = true) := by
  intro l
  induction l with
  | nil => simp [chainB]
  | cons a rest ih =>
    cases rest with
    | nil => simp [chainB]
    | cons b rest2 =>
      simp only [chainB, Bool.and_eq_true, List.chain'_cons]
      rw [ih]

set_option maxRecDepth 10000 in
unseal Rat.add Rat.mul Rat.inv Rat.sub Rat.ofScientific in
/-- C5 counterexample: with an empty weight table the pipeline returns two
candidates, both without a `priority_score`, so the returned list is not
non-increasing in `priority_score` as the claim states. -/
theorem C5_ranking_order_counterexample :
    (extract_materiality_issues_enhanced c5K [c5Element]).issues.length = 2 ∧
    ¬ (extract_materiality_issues_enhanced c5K [c5Element]).issues.Chain'
        priorityStepDesc := by
  refine ⟨by decide, ?_⟩
  intro h
  have hC : chainB priorityStepDescB
      (extract_materiality_issues_enhanced c5K [c5Element]).issues = true :=
    (chainB_iff priorityStepDescB _).2 h
  have hF : chainB priorityStepDescB
      (extract_materiality_issues_enhanced c5K [c5Element]).issues = false := by
    decide
  exact absurd (hC.symm.trans hF) (by decide)

set_option maxRecDepth 20000 in
unseal Rat.add Rat.mul Rat.inv Rat.sub Rat.ofScientific in
/-- C5 witness: on the 21-issue example the detected industry 기타 has a
weight entry, and the returned list is non-increasing in `priority_score`. -/
theorem C5_ranking_order_witness :
    (extract_materiality_issues_enhanced exK [exElement]).issues.Chain'
      priorityStepDesc :=
  (C5_ranking_order_amended exK [exElement]).1 [("I21", 1/2)] (by decide)

theorem length_apply_industry_priority
    (weights : List (String × List (String × ℚ))) (issues : List Issue)
    (industry : String) :
    (apply_industry_priority weights issues industry).length = issues.length := by
  unfold apply_industry_priority
  split
  · rfl
  · rw [length_pySortDescBy, List.length_map]

theorem length_prioritizedOf (K : Constants) (elements : List Element) :
    (prioritizedOf K elements).length =
      (remove_duplicate_issues (candidatesOf K elements)).length := by
  unfold prioritizedOf
  rw [length_apply_industry_priority]
  unfold uniqueSortedOf
  rw [length_pySortDescBy]

/-- C9.  The aggregate confidence block is computed from the full prioritized
candidate list, not from the truncated top-20 list: whenever more than 20
candidates survive deduplication, `overall_confidence.issues_found` equals the
full count and strictly exceeds the length of the returned `issues` list
(which is exactly 20). -/
theorem C9_aggregate_before_truncation :
    ∀ (K : Constants) (elements : List Element),
    20 < (remove_duplicate_issues (candidatesOf K elements)).length →
    (extract_materiality_issues_enhanced K elements).overall_confidence.issues_found =
      some ((remove_duplicate_issues (candidatesOf K elements)).length) ∧
    (extract_materiality_issues_enhanced K elements).issues.length = 20 ∧
    (extract_materiality_issues_enhanced K elements).issues.length <
      (remove_duplicate_issues (candidatesOf K elements)).length := by
  intro K elements h
  have hlen := length_prioritizedOf K elements
  have hne : prioritizedOf K elements ≠ [] := by
    intro he
    rw [he] at hlen
    simp at hlen
    omega
  have hl20 : (extract_materiality_issues_enhanced K elements).issues.length = 20 := by
    have : (extract_materiality_issues_enhanced K elements).issues =
        (prioritizedOf K elements).take 20 := rfl
    rw [this, List.length_take]
    omega
  refine ⟨?_, hl20, by omega⟩
  have hoc : (extract_materiality_issues_enhanced K elements).overall_confidence =
      calculate_overall_confidence_enhanced (prioritizedOf K elements)
        (issueScoresOf (candidatesOf K elements)) (detectedOf K elements) := rfl
  rw [hoc]
  unfold calculate_overall_confidence_enhanced
  rw [if_neg hne]
  show some ((prioritizedOf K elements).length) =
    some ((remove_duplicate_issues (candidatesOf K elements)).length)
  rw [hlen]

set_option maxRecDepth 20000 in
unseal Rat.add Rat.mul Rat.inv Rat.sub Rat.ofScientific in
/-- C9 witness: the 21-issue example has 21 deduplicated candidates;
`issues_found` reports 21 while only 20 issues are returned. -/
theorem C9_aggregate_before_truncation_witness :
    (extract_materiality_issues_enhanced exK [exElement]).overall_confidence.issues_found =
      some ((remove_duplicate_issues (candidatesOf exK [exElement])).length) ∧
    (extract_materiality_issues_enhanced exK [exElement]).issues.length = 20 ∧
    (extract_materiality_issues_enhanced exK [exElement]).issues.length <
      (remove_duplicate_issues (candidatesOf exK [exElement])).length :=
  C9_aggregate_before_truncation exK [exElement] (by decide)

theorem keywordPoints_mono (kw : String) {c c' : Nat} (h : c ≤ c') :
    keywordPoints kw c ≤ keywordPoints kw c' := by
  unfold keywordPoints
  by_cases h0 : 0 < c
  · rw [if_pos h0, if_pos (lt_of_lt_of_le h0 h)]
    split
    · exact min_le_min (Nat.mul_le_mul_right _ h) (le_refl _)
    · split
      · exact min_le_min (Nat.mul_le_mul_right _ h) (le_refl _)
      · exact min_le_min (Nat.mul_le_mul_right _ h) (le_refl _)
  · rw [if_neg h0]
    exact Nat.zero_le _

theorem industryScore_mono {kws : List String} {t t' : String}
    (h : ∀ kw ∈ kws, pyCount t kw ≤ pyCount t' kw) :
    industryScore kws t ≤ industryScore kws t' := by
  unfold industryScore
  refine List.sum_le_sum ?_
  intro kw hkw
  exact keywordPoints_mono kw (h kw hkw)

theorem industryScore_congr {kws : List String} {t t' : String}
    (h : ∀ kw ∈ kws, pyCount t' kw = pyCount t kw) :
    industryScore kws t' = industryScore kws t := by
  unfold industryScore
  refine congrArg List.sum ?_
  refine List.map_congr_left ?_
  intro kw hkw
  rw [h kw hkw]

theorem foldl_maxStep_mem :
    ∀ (l : List (String × Nat)) (c : String × Nat), l.foldl maxStep c ∈ c :: l := by
  intro l
  induction l with
  | nil => intro c; simp
  | cons q rest ih =>
    intro c
    rw [List.foldl_cons]
    by_cases h : q.2 > c.2
    · rw [show maxStep c q = q from if_pos h]
      exact List.mem_cons_of_mem _ (ih q)
    · rw [show maxStep c q = c from if_neg h]
      rcases List.mem_cons.1 (ih c) with h1 | h1
      · rw [h1]; exact List.mem_cons_self _ _
      · exact List.mem_cons_of_mem _ (List.mem_cons_of_mem _ h1)

theorem foldl_maxStep_ge :
    ∀ (l : List (String × Nat)) (c : String × Nat),
    c.2 ≤ (l.foldl maxStep c).2 ∧ ∀ r ∈ l, r.2 ≤ (l.foldl maxStep c).2 := by
  intro l
  induction l with
  | nil => intro c; exact ⟨le_refl _, by simp⟩
  | cons q rest ih =>
    intro c
    rw [List.foldl_cons]
    rcases ih (maxStep c q) with ⟨h1, h2⟩
    have hstep : c.2 ≤ (maxStep c q).2 ∧ q.2 ≤ (maxStep c q).2 := by
      unfold maxStep
      by_cases h : q.2 > c.2
      · rw [if_pos h]; omega
      · rw [if_neg h]; omega
    refine ⟨le_trans hstep.1 h1, ?_⟩
    intro r hr
    rcases List.mem_cons.1 hr with h3 | h3
    · rw [h3]; exact le_trans hstep.2 h1
    · exact h2 r h3

theorem scores_keys (auto : List (String × List String)) (t : String) :
    (industryScores auto t).map Prod.fst = auto.map Prod.fst := by
  unfold industryScores
  rw [List.map_map]
  rfl

theorem maxStep_rel (X : String) {a b c c' : String × Nat}
    (hk : a.1 = b.1) (hle : a.2 ≤ b.2) (heq : a.1 ≠ X → a.2 = b.2)
    (hInv : (c'.1 = c.1 ∧ c.2 ≤ c'.2 ∧ (c.1 ≠ X → c.2 = c'.2)) ∨
      (c'.1 = X ∧ c.2 ≤ c'.2)) :
    ((maxStep c' b).1 = (maxStep c a).1 ∧ (maxStep c a).2 ≤ (maxStep c' b).2 ∧
      ((maxStep c a).1 ≠ X → (maxStep c a).2 = (maxStep c' b).2)) ∨
    ((maxStep c' b).1 = X ∧ (maxStep c a).2 ≤ (maxStep c' b).2) := by
  rcases hInv with ⟨h1, h2, h3⟩ | ⟨h1, h2⟩
  · by_cases ha : a.2 > c.2
    · by_cases hb : b.2 > c'.2
      · rw [show maxStep c a = a from if_pos ha, show maxStep c' b = b from if_pos hb]
        exact Or.inl ⟨hk.symm, hle, heq⟩
      · rw [show maxStep c a = a from if_pos ha, show maxStep c' b = c' from if_neg hb]
        by_cases hcx : c.1 = X
        · exact Or.inr ⟨h1.trans hcx, by omega⟩
        · exfalso
          have h4 := h3 hcx
          omega
    · by_cases hb : b.2 > c'.2
      · rw [show maxStep c a = c from if_neg ha, show maxStep c' b = b from if_pos hb]
        by_cases hax : a.1 = X
        · exact Or.inr ⟨hk.symm.trans hax, by omega⟩
        · exfalso
          have h4 := heq hax
          omega
      · rw [show maxStep c a = c from if_neg ha, show maxStep c' b = c' from if_neg hb]
        exact Or.inl ⟨h1, h2, h3⟩
  · by_cases ha : a.2 > c.2
    · by_cases hb : b.2 > c'.2
      · rw [show maxStep c a = a from if_pos ha, show maxStep c' b = b from if_pos hb]
        exact Or.inl ⟨hk.symm, hle, heq⟩
      · rw [show maxStep c a = a from if_pos ha, show maxStep c' b = c' from if_neg hb]
        exact Or.inr ⟨h1, by omega⟩
    · by_cases hb : b.2 > c'.2
      · rw [show maxStep c a = c from if_neg ha, show maxStep c' b = b from if_pos hb]
        by_cases hax : a.1 = X
        · exact Or.inr ⟨hk.symm.trans hax, by omega⟩
        · exfalso
          have h4 := heq hax
          omega
      · rw [show maxStep c a = c from if_neg ha, show maxStep c' b = c' from if_neg hb]
        exact Or.inr ⟨h1, h2⟩

theorem foldl_max_rel (X : String) :
    ∀ {l l' : List (String × Nat)},
    List.Forall₂ (fun p q => p.1 = q.1 ∧ p.2 ≤ q.2 ∧ (p.1 ≠ X → p.2 = q.2)) l l' →
    ∀ (c c' : String × Nat),
    ((c'.1 = c.1 ∧ c.2 ≤ c'.2 ∧ (c.1 ≠ X → c.2 = c'.2)) ∨ (c'.1 = X ∧ c.2 ≤ c'.2)) →
    (((l'.foldl maxStep c').1 = (l.foldl maxStep c).1 ∧
      (l.foldl maxStep c).2 ≤ (l'.foldl maxStep c').2 ∧
      ((l.foldl maxStep c).1 ≠ X →
        (l.foldl maxStep c).2 = (l'.foldl maxStep c').2)) ∨
    ((l'.foldl maxStep c').1 = X ∧
      (l.foldl maxStep c).2 ≤ (l'.foldl maxStep c').2)) := by
  intro l l' hrel
  induction hrel with
  | nil => intro c c' h; simpa using h
  | cons hab hrest ih =>
    intro c c' hInv
    rw [List.foldl_cons, List.foldl_cons]
    exact ih _ _ (maxStep_rel X hab.1 hab.2.1 hab.2.2 hInv)

theorem scores_rel (X k0 t t' : String) :
    ∀ (l : List (String × List String)),
    pyCount t' k0 = pyCount t k0 + 1 →
    (∀ p ∈ l, ∀ kw ∈ p.2, ¬(p.1 = X ∧ kw = k0) → pyCount t' kw = pyCount t kw) →
    List.Forall₂ (fun p q => p.1 = q.1 ∧ p.2 ≤ q.2 ∧ (p.1 ≠ X → p.2 = q.2))
      (industryScores l t) (industryScores l t') := by
  intro l hinc hother
  induction l with
  | nil => exact List.Forall₂.nil
  | cons a rest ih =>
    refine List.Forall₂.cons ⟨rfl, ?_, ?_⟩
      (ih (fun p hp => hother p (List.mem_cons_of_mem _ hp)))
    · apply industryScore_mono
      intro kw hkw
      by_cases hkk : kw = k0
      · subst hkk
        omega
      · have h4 := hother a (List.mem_cons_self _ _) kw hkw (fun hcon => hkk hcon.2)
        omega
    · intro hax
      refine (industryScore_congr ?_).symm
      intro kw hkw
      exact hother a (List.mem_cons_self _ _) kw hkw (fun hcon => hax hcon.1)

theorem snd_le_foldl_max {h : String × Nat} {tail : List (String × Nat)}
    {r : String × Nat} (hr : r ∈ h :: tail) : r.2 ≤ (tail.foldl maxStep h).2 := by
  rcases List.mem_cons.1 hr with h1 | h1
  · rw [h1]
    exact (foldl_maxStep_ge tail h).1
  · exact (foldl_maxStep_ge tail h).2 r h1

theorem scoreIn_eq_of_mem {auto : List (String × List String)} {t X : String}
    {kws : List String} (hnd : (auto.map Prod.fst).Nodup) (hmem : (X, kws) ∈ auto) :
    scoreIn auto t X = industryScore kws t := by
  have hnd2 : ((industryScores auto t).map Prod.fst).Nodup := by
    rw [scores_keys]
    exact hnd
  have hm2 : (X, industryScore kws t) ∈ industryScores auto t :=
    List.mem_map.2 ⟨(X, kws), hmem, rfl⟩
  unfold scoreIn
  rw [alookup_of_mem_nodup hnd2 hm2]
  rfl

theorem alookup_gita_none {auto : List (String × List String)} {t : String}
    (hg : "기타" ∉ auto.map Prod.fst) :
    alookup "기타" (industryScores auto t) = none := by
  apply alookup_eq_none
  rw [scores_keys]
  exact hg

/-- C6.  Amended: adding one more occurrence of a core-identity keyword of
industry X (all other keyword counts unchanged) never decreases X's detection
score, and the winner either stays the same or becomes X — which can happen
already when X's new score merely EQUALS the current winner's score, because
Python's `max` breaks ties in favour of the industry listed first; "strictly
greater" is therefore weakened to "at least".  (The fallback tag 기타 is
assumed not to name an industry of the detection table.) -/
theorem C6_detection_monotonicity_amended :
    ∀ (auto : List (String × List String)) (t t' X : String) (kws : List String)
      (k0 : String),
    (auto.map Prod.fst).Nodup →
    "기타" ∉ auto.map Prod.fst →
    (X, kws) ∈ auto →
    k0 ∈ kws →
    isCoreIdentityKeyword k0 = true →
    pyCount t' k0 = pyCount t k0 + 1 →
    (∀ p ∈ auto, ∀ kw ∈ p.2, ¬(p.1 = X ∧ kw = k0) →
      pyCount t' kw = pyCount t kw) →
    scoreIn auto t X ≤ scoreIn auto t' X ∧
    (detect_industry_from_text auto t' = detect_industry_from_text auto t ∨
      (detect_industry_from_text auto t' = X ∧
        scoreIn auto t' (detect_industry_from_text auto t) ≤ scoreIn auto t' X)) := by
  intro auto t t' X kws k0 hnd hg hmem hk0 _hcore hinc hother
  have hmono : scoreIn auto t X ≤ scoreIn auto t' X := by
    rw [scoreIn_eq_of_mem hnd hmem, scoreIn_eq_of_mem hnd hmem]
    apply industryScore_mono
    intro kw hkw
    by_cases hkk : kw = k0
    · subst hkk
      omega
    · have h4 := hother (X, kws) hmem kw hkw (fun hcon => hkk hcon.2)
      omega
  refine ⟨hmono, ?_⟩
  cases auto with
  | nil => simp at hmem
  | cons a rest =>
    have hrest := scores_rel X k0 t t' rest hinc
      (fun p hp => hother p (List.mem_cons_of_mem _ hp))
    have hhead2 : industryScore a.2 t ≤ industryScore a.2 t' := by
      apply industryScore_mono
      intro kw hkw
      by_cases hkk : kw = k0
      · subst hkk
        omega
      · have h4 := hother a (List.mem_cons_self _ _) kw hkw (fun hcon => hkk hcon.2)
        omega
    have hhead3 : a.1 ≠ X → industryScore a.2 t = industryScore a.2 t' := by
      intro hax
      refine (industryScore_congr ?_).symm
      intro kw hkw
      exact hother a (List.mem_cons_self _ _) kw hkw (fun hcon => hax hcon.1)
    have hfold := foldl_max_rel X hrest (a.1, industryScore a.2 t)
      (a.1, industryScore a.2 t') (Or.inl ⟨rfl, hhead2, fun hax => hhead3 hax⟩)
    have hdet_t : detect_industry_from_text (a :: rest) t =
        (if 0 < ((industryScores rest t).foldl maxStep
            (a.1, industryScore a.2 t)).2 then
          ((industryScores rest t).foldl maxStep (a.1, industryScore a.2 t)).1
        else "기타") := rfl
    have hdet_t' : detect_industry_from_text (a :: rest) t' =
        (if 0 < ((industryScores rest t').foldl maxStep
            (a.1, industryScore a.2 t')).2 then
          ((industryScores rest t').foldl maxStep (a.1, industryScore a.2 t')).1
        else "기타") := rfl
    have hs' : industryScores (a :: rest) t' =
        (a.1, industryScore a.2 t') :: industryScores rest t' := rfl
    have hnd' : ((industryScores (a :: rest) t').map Prod.fst).Nodup := by
      rw [scores_keys]
      exact hnd
    have halookB' : alookup
        ((industryScores rest t').foldl maxStep (a.1, industryScore a.2 t')).1
        (industryScores (a :: rest) t') =
        some ((industryScores rest t').foldl maxStep (a.1, industryScore a.2 t')).2 := by
      apply alookup_of_mem_nodup hnd'
      rw [hs']
      exact foldl_maxStep_mem (industryScores rest t') (a.1, industryScore a.2 t')
    have hle_max : ∀ Z, scoreIn (a :: rest) t' Z ≤
        ((industryScores rest t').foldl maxStep (a.1, industryScore a.2 t')).2 := by
      intro Z
      unfold scoreIn
      cases halo : alookup Z (industryScores (a :: rest) t') with
      | none => simp
      | some v =>
        simp only [Option.getD_some]
        have hv := alookup_mem halo
        rw [hs'] at hv
        exact snd_le_foldl_max hv
    rcases hfold with ⟨hE1, hE2, hE3⟩ | ⟨hE1, hE2⟩
    · by_cases hBX :
          ((industryScores rest t).foldl maxStep (a.1, industryScore a.2 t)).1 = X
      · by_cases hB0 :
            0 < ((industryScores rest t).foldl maxStep (a.1, industryScore a.2 t)).2
        · left
          rw [hdet_t', hdet_t, if_pos hB0, if_pos (by omega)]
          exact hE1
        · by_cases hB'0 : 0 <
              ((industryScores rest t').foldl maxStep (a.1, industryScore a.2 t')).2
          · right
            constructor
            · rw [hdet_t', if_pos hB'0]
              exact hE1.trans hBX
            · rw [hdet_t, if_neg hB0]
              have hgx : scoreIn (a :: rest) t' "기타" = 0 := by
                unfold scoreIn
                rw [alookup_gita_none hg]
                rfl
              rw [hgx]
              exact Nat.zero_le _
          · left
            rw [hdet_t', hdet_t, if_neg hB0, if_neg hB'0]
      · have hBeq := hE3 hBX
        left
        rw [hdet_t', hdet_t, ← hBeq, hE1]
    · by_cases hB'0 : 0 <
          ((industryScores rest t').foldl maxStep (a.1, industryScore a.2 t')).2
      · right
        constructor
        · rw [hdet_t', if_pos hB'0]
          exact hE1
        · have hsX : scoreIn (a :: rest) t' X =
              ((industryScores rest t').foldl maxStep (a.1, industryScore a.2 t')).2 := by
            unfold scoreIn
            rw [← hE1, halookB']
            rfl
          rw [hsX]
          exact hle_max _
      · left
        rw [hdet_t', hdet_t, if_neg hB'0, if_neg (by omega)]

/-- C6 counterexample: on `detAuto`, adding one occurrence of A's
core-identity keyword 회사 (B's keyword count unchanged) lifts A from 10 to
15, merely TYING the winner B at 15 — yet the winner flips from B to A by the
first-seen tie-break, without A's score ever becoming strictly greater than
B's.  This refutes the "unless X's score becomes strictly greater" clause. -/
theorem C6_detection_monotonicity_counterexample :
    (detAuto.map Prod.fst).Nodup ∧
    ("기타" ∉ detAuto.map Prod.fst) ∧
    ("A", ["회사"]) ∈ detAuto ∧
    isCoreIdentityKeyword "회사" = true ∧
    pyCount detTextTie "회사" = pyCount detText "회사" + 1 ∧
    pyCount detTextTie "가나다라" = pyCount detText "가나다라" ∧
    detect_industry_from_text detAuto detText = "B" ∧
    detect_industry_from_text detAuto detTextTie = "A" ∧
    ¬ (scoreIn detAuto detTextTie "B" < scoreIn detAuto detTextTie "A") := by
  refine ⟨?_, ?_, ?_, ?_, ?_, ?_, ?_, ?_, ?_⟩ <;> decide

/-- C6 witness: one more 회사 on `detTextW` lifts A from 5 to 10 and the
winner changes from B to A with A's score at least B's. -/
theorem C6_detection_monotonicity_witness :
    scoreIn detAuto detTextW "A" ≤ scoreIn detAuto detTextW' "A" ∧
    (detect_industry_from_text detAuto detTextW' =
        detect_industry_from_text detAuto detTextW ∨
      (detect_industry_from_text detAuto detTextW' = "A" ∧
        scoreIn detAuto detTextW' (detect_industry_from_text detAuto detTextW) ≤
          scoreIn detAuto detTextW' "A")) :=
  C6_detection_monotonicity_amended detAuto detTextW detTextW' "A" ["회사"] "회사"
    (by decide) (by decide) (by decide) (by decide) (by decide) (by decide)
    (by decide)

end DMM
